import Mathlib

/-!
Verification of the loss computation subsystem of lightning-pose
(`lightning_pose/losses/losses.py`).

Tensors are shallowly embedded as nested lists of scalar values.  A scalar
float is modelled by `FVal`: either `nan` (IEEE not-a-number) or a finite
numeric value, represented by a rational.  Arithmetic on `FVal` propagates
`nan`; the IEEE comparison operators treat every comparison involving `nan`
as false, which is exactly the behaviour the Python code relies on
(`targets == targets` is the not-a-number mask, `loss < epsilon` never
fires on a `nan` entry).

The quantities that are irrational in the source (`torch.exp`,
`torch.sqrt`, `torch.linalg.norm`) are modelled over the real numbers.
-/

set_option linter.unusedVariables false

/-- IEEE-style float scalar: `nan`, or a finite value modelled as a rational. -/
inductive FVal where
  | nan : FVal
  | num (q : ℚ) : FVal
deriving DecidableEq

namespace FVal

/-- Float addition: any operation involving `nan` yields `nan`. -/
def add : FVal → FVal → FVal
  | num a, num b => num (a + b)
  | _, _ => nan

/-- Float subtraction: any operation involving `nan` yields `nan`. -/
def sub : FVal → FVal → FVal
  | num a, num b => num (a - b)
  | _, _ => nan

/-- Float multiplication: any operation involving `nan` yields `nan`. -/
def mul : FVal → FVal → FVal
  | num a, num b => num (a * b)
  | _, _ => nan

/-- Division of a float by a (positive) element count, as in `torch.mean`. -/
def divNat : FVal → ℕ → FVal
  | nan, _ => nan
  | num a, n => num (a / n)

/-- IEEE equality test `==`: `nan` compares unequal to everything, itself included. -/
def beq : FVal → FVal → Bool
  | num a, num b => a == b
  | _, _ => false

/-- IEEE strict order `<`: any comparison involving `nan` is false. -/
def ltb : FVal → FVal → Bool
  | num a, num b => decide (a < b)
  | _, _ => false

/-- Test for `nan`. -/
def isnan : FVal → Bool
  | nan => true
  | num _ => false

/-- Interpret a float scalar as a real number; `nan` has no real value. -/
def toReal : FVal → Option ℝ
  | nan => none
  | num q => some (q : ℝ)

theorem beq_self_eq_not_isnan (v : FVal) : v.beq v = !v.isnan := by
  cases v <;> simp [beq, isnan]

theorem add_nan_left (v : FVal) : add nan v = nan := by cases v <;> rfl

theorem add_nan_right (v : FVal) : add v nan = nan := by cases v <;> rfl

theorem sub_nan_right (v : FVal) : sub v nan = nan := by cases v <;> rfl

theorem mul_nan_right (v : FVal) : mul v nan = nan := by cases v <;> rfl

end FVal

/-- Elementwise squared error `(t - p)^2`, the body of
`F.mse_loss(targets, predictions, reduction="none")`. -/
def sqdiff (a b : FVal) : FVal := (a.sub b).mul (a.sub b)

/-- `torch.sum` over a flattened tensor (sum of an empty tensor is `0`). -/
def fsum (l : List FVal) : FVal := l.foldr FVal.add (FVal.num 0)

/-- `torch.mean` over a flattened tensor: the sum divided by the element
count.  `torch.mean` of an empty tensor is `0 / 0`, i.e. `nan` (PyTorch
returns `nan` without raising). -/
def fmean (l : List FVal) : FVal :=
  if l.isEmpty then FVal.nan else (fsum l).divNat l.length

theorem fsum_eq_nan_of_mem {l : List FVal} (h : FVal.nan ∈ l) : fsum l = FVal.nan := by
  induction l with
  | nil => cases h
  | cons a t ih =>
    rcases List.mem_cons.mp h with ha | ht
    · subst ha
      simpa [fsum] using FVal.add_nan_left _
    · have ht2 : fsum t = FVal.nan := ih ht
      simp only [fsum, List.foldr_cons] at ht2 ⊢
      rw [ht2]
      exact FVal.add_nan_right _

theorem fmean_eq_nan_of_mem {l : List FVal} (h : FVal.nan ∈ l) : fmean l = FVal.nan := by
  have hne : l ≠ [] := List.ne_nil_of_mem h
  simp [fmean, List.isEmpty_iff, hne, fsum_eq_nan_of_mem h, FVal.divNat]

/-- `Loss.weight` (losses.py line 79): `weight = 1.0 / (2.0 * torch.exp(self.log_weight))`. -/
noncomputable def weight (lw : ℝ) : ℝ := 1 / (2 * Real.exp lw)

/-- The value returned by every `__call__` (`return self.weight * scalar_loss`):
the reduced scalar loss multiplied by the derived weight.  A `nan` scalar loss
stays `nan` (here: `none`). -/
noncomputable def weightedOutput (lw : ℝ) (scalarLoss : FVal) : Option ℝ :=
  scalarLoss.toReal.map (fun x => weight lw * x)

/-- `Loss.rectify_epsilon` (lines 89-93):
`loss.masked_fill(mask=loss < self.epsilon, value=0.0)` on a flattened loss
tensor.  An entry that compares `< epsilon` (which a `nan` entry never does)
is replaced by exactly `0`. -/
def rectifyF (eps : ℚ) (l : List FVal) : List FVal :=
  l.map (fun v => if v.ltb (FVal.num eps) then FVal.num 0 else v)

/-- `Loss.rectify_epsilon` applied to a two-dimensional loss tensor. -/
def rectify2F (eps : ℚ) (l : List (List FVal)) : List (List FVal) :=
  l.map (rectifyF eps)

/-- `Loss.reduce_loss` (lines 95-97): look `method` up in
`reduce_methods_dict = {"mean": torch.mean, "sum": torch.sum}` and apply it;
an unknown method is a lookup failure (`none`). -/
def reduceLoss (method : String) (l : List FVal) : Option FVal :=
  if method = "mean" then some (fmean l)
  else if method = "sum" then some (fsum l)
  else none

/-- Boolean-mask indexing `tensor[mask]` / `torch.masked_select`, on a
row-major flattened tensor: keep the entries whose mask bit is `true`,
preserving order. -/
def booleanIndex {α : Type} (xs : List α) (mask : List Bool) : List α :=
  ((xs.zip mask).filter (fun ab => ab.2)).map Prod.fst

/-- One `(heatmap_height, heatmap_width)` heatmap slice. -/
abbrev Slice := List (List FVal)

/-- A 4-dimensional `(batch, num_keypoints, height, width)` heatmap tensor. -/
abbrev Hm4 := List (List Slice)

/-- The test `torch.all(squeezed_targets == 0.0, dim=-1)` for one slice:
after `reshape(batch, keypoints, -1)` the spatial extent of the slice is
flattened (`join`) and every entry is compared against `0.0` with the IEEE
`==`. -/
def allZero (s : Slice) : Bool := s.flatten.all (fun v => v.beq (FVal.num 0))

/-- `HeatmapLoss.remove_nans` (lines 142-159): compute the all-zero mask over
the `(batch, keypoint)` slices of the targets and select the complement
(`targets[~all_zeroes]`, `predictions[~all_zeroes]`), flattening the batch and
keypoint dimensions row-major. -/
def removeNansHeatmap (targets predictions : Hm4) : List Slice × List Slice :=
  let tj := targets.flatten
  let pj := predictions.flatten
  let all_zeroes := tj.map allZero
  (booleanIndex tj (all_zeroes.map (fun b => !b)),
   booleanIndex pj (all_zeroes.map (fun b => !b)))

/-- `RegressionMSELoss.remove_nans` (lines 490-499): the mask is the
elementwise IEEE self-comparison `targets == targets` (false exactly on
not-a-number entries), and `torch.masked_select` applies that same mask to
both tensors, flattening them row-major. -/
def removeNansReg (targets predictions : List (List FVal)) : List FVal × List FVal :=
  let tf := targets.flatten
  let pf := predictions.flatten
  let mask := tf.map (fun v => v.beq v)
  (booleanIndex tf mask, booleanIndex pf mask)

/-- `HeatmapLoss.__call__` (lines 164-188): remove_nans, elementwise
compute_loss (the subclass hook, here a parameter returning the flattened
elementwise loss: MSE for `HeatmapMSELoss`, the external Sinkhorn distance
for `HeatmapWassersteinLoss`), mean reduction, weighting.  No
`rectify_epsilon` appears on this path (line 184 is commented out in the
source). -/
noncomputable def heatmapCall (computeLoss : List Slice → List Slice → List FVal)
    (lw : ℝ) (t p : Hm4) : Option ℝ :=
  let clean := removeNansHeatmap t p
  let elementwise := computeLoss clean.1 clean.2
  let scalar := fmean elementwise
  weightedOutput lw scalar

/-- `HeatmapMSELoss.compute_loss` (lines 204-213), flattened:
`F.mse_loss(targets, predictions, reduction="none")` over the remaining
slices. -/
def heatmapMSEElem (t p : List Slice) : List FVal :=
  (List.zipWith (fun s s2 => (List.zipWith (fun r r2 => List.zipWith sqdiff r r2) s s2).flatten) t p).flatten

/-- `RegressionMSELoss.__call__` (lines 510-528): remove_nans, elementwise
compute_loss (the `self.compute_loss` dispatch is a parameter: the MSE body
for `RegressionMSELoss`, the root-of-averaged-squares body for the inheriting
`RegressionRMSELoss`, which overrides only `__init__` and `compute_loss`),
mean reduction, weighting.  `self.epsilon` is stored by the constructor but
never used on this path. -/
noncomputable def regressionCall (computeLoss : List FVal → List FVal → List FVal)
    (lw : ℝ) (eps : ℚ) (t p : List (List FVal)) : Option ℝ :=
  let clean := removeNansReg t p
  let elementwise := computeLoss clean.1 clean.2
  let scalar := fmean elementwise
  weightedOutput lw scalar

/-- `RegressionMSELoss.compute_loss` (lines 501-508):
`F.mse_loss(targets, predictions, reduction="none")` on the flattened
cleaned tensors. -/
def regressionMSEElem (t p : List FVal) : List FVal := List.zipWith sqdiff t p

/-- The full `RegressionMSELoss` call. -/
noncomputable def regressionMSECall (lw : ℝ) (eps : ℚ) (t p : List (List FVal)) : Option ℝ :=
  regressionCall regressionMSEElem lw eps t p

/-- `PCALoss.__call__` (lines 296-325), single-view path: `compute_loss`
(the PCA reprojection error, computed by the external `KeypointPCA` module
and therefore a parameter here) followed by `rectify_epsilon`, mean
reduction and weighting. -/
noncomputable def pcaCall (computeLoss : List (List FVal) → List (List FVal))
    (lw : ℝ) (eps : ℚ) (preds : List (List FVal)) : Option ℝ :=
  let elementwise := computeLoss preds
  let rectified := rectify2F eps elementwise
  let scalar := fmean rectified.flatten
  weightedOutput lw scalar

/-- Split a flat interleaved `x, y, x, y, ...` row into coordinate pairs:
`reshape(-1, 2)` on one row (a trailing odd element cannot occur on the
shapes the source admits). -/
def pairUp {α : Type} : List α → List (α × α)
  | [] => []
  | [_] => []
  | x :: y :: rest => (x, y) :: pairUp rest

/-- `UnimodalLoss.__call__` (lines 444-471): reshape the predicted
coordinates into pairs, synthesize ideal unimodal heatmaps from them
(`generate_heatmaps` lives in `lightning_pose.data.utils`, outside the loss
module, and is a parameter here), run the variant's `compute_loss`
(elementwise MSE or the external Sinkhorn distance, a parameter returning
the flattened elementwise loss), then reduce by mean and weight.  The
constructor stores `self.epsilon`, but `__call__` never applies
`rectify_epsilon`. -/
noncomputable def unimodalCall
    (computeLoss : Hm4 → Hm4 → List FVal)
    (generateHeatmaps : List (List (FVal × FVal)) → Hm4)
    (lw : ℝ) (eps : ℚ)
    (keypointsPred : List (List FVal)) (heatmapsPred : Hm4) : Option ℝ :=
  let kp := keypointsPred.map pairUp
  let heatmapsIdeal := generateHeatmaps kp
  let elementwise := computeLoss heatmapsIdeal heatmapsPred
  let scalar := fmean elementwise
  weightedOutput lw scalar

/-- `UnimodalLoss.compute_loss` (lines 421-442), `unimodal_mse` branch,
flattened: elementwise `F.mse_loss(targets, predictions, reduction="none")`. -/
def unimodalMSEElem (t p : Hm4) : List FVal :=
  (List.zipWith (fun a b =>
    (List.zipWith (fun s s2 => (List.zipWith (fun r r2 => List.zipWith sqdiff r r2) s s2).flatten) a b).flatten) t p).flatten

/-- The pipeline the claim asserts for the unimodal losses: identical to
`unimodalCall`, except that `rectify_epsilon` is applied between the
elementwise loss computation and the mean reduction (the spec sentence
"applied only to unsupervised regularization losses (temporal, PCA,
unimodal)").  Stated only for comparison against `unimodalCall`. -/
noncomputable def unimodalCallWithRectify
    (computeLoss : Hm4 → Hm4 → List FVal)
    (generateHeatmaps : List (List (FVal × FVal)) → Hm4)
    (lw : ℝ) (eps : ℚ)
    (keypointsPred : List (List FVal)) (heatmapsPred : Hm4) : Option ℝ :=
  let kp := keypointsPred.map pairUp
  let heatmapsIdeal := generateHeatmaps kp
  let elementwise := computeLoss heatmapsIdeal heatmapsPred
  let scalar := fmean (rectifyF eps elementwise)
  weightedOutput lw scalar

/-- Euclidean norm of one `(x, y)` displacement:
`torch.linalg.norm(reshape, ord=2, dim=2)` on one coordinate pair. -/
noncomputable def norm2 (v : ℝ × ℝ) : ℝ := Real.sqrt (v.1 ^ 2 + v.2 ^ 2)

/-- `torch.diff(predictions, dim=0)`: consecutive differences along the
batch axis, elementwise on each row; `out[i] = in[i+1] - in[i]`. -/
def diffRows (preds : List (List ℝ)) : List (List ℝ) :=
  List.zipWith (fun next prev => List.zipWith (fun a b => a - b) next prev) preds.tail preds

/-- `TemporalLoss.compute_loss` (lines 352-367): consecutive differences
along the batch axis, reshaped into per-keypoint `(x, y)` pairs, each pair
reduced to its Euclidean norm.  Temporal predictions carry no missing
labels, so this part of the pipeline is modelled over the reals directly. -/
noncomputable def temporalCompute (preds : List (List ℝ)) : List (List ℝ) :=
  (diffRows preds).map (fun row => (pairUp row).map norm2)

/-- `Loss.rectify_epsilon` over the real-valued temporal loss tensor. -/
noncomputable def rectifyR (eps : ℝ) (l : List ℝ) : List ℝ :=
  l.map (fun v => if v < eps then 0 else v)

/-- `torch.mean` over a real-valued flattened tensor (always applied to a
nonempty tensor on the temporal path). -/
noncomputable def meanR (l : List ℝ) : ℝ := l.sum / l.length

/-- `TemporalLoss.__call__` (lines 369-381): elementwise compute_loss,
`rectify_epsilon`, mean reduction, weighting. -/
noncomputable def temporalCall (lw : ℝ) (eps : ℝ) (preds : List (List ℝ)) : ℝ :=
  let elementwise := temporalCompute preds
  let rectified := (elementwise.map (rectifyR eps)).flatten
  let scalar := meanR rectified
  weight lw * scalar

/-- `RegressionRMSELoss.compute_loss` (lines 547-556): reshape both tensors
into `(x, y)` pairs (`reshape(-1, 2)`), take the elementwise squared error,
average the two squared components of each keypoint (`torch.mean(..., dim=1)`),
then take the square root — one value per keypoint. -/
noncomputable def rmseCompute (targets predictions : List ℝ) : List ℝ :=
  ((pairUp targets).zip (pairUp predictions)).map
    (fun tp => Real.sqrt (((tp.1.1 - tp.2.1) ^ 2 + (tp.1.2 - tp.2.2) ^ 2) / 2))

theorem booleanIndex_self_map {α : Type} (xs : List α) (m : α → Bool) :
    booleanIndex xs (xs.map m) = xs.filter m := by
  induction xs with
  | nil => rfl
  | cons x xs ih =>
    simp only [booleanIndex, List.map_cons, List.zip_cons_cons, List.filter_cons] at ih ⊢
    cases hmx : m x
    · simpa [hmx] using ih
    · simpa [hmx] using ih

theorem booleanIndex_other_map {α β : Type} (xs : List α) (ys : List β) (m : α → Bool)
    (h : xs.length = ys.length) :
    booleanIndex ys (xs.map m) = ((xs.zip ys).filter (fun ab => m ab.1)).map Prod.snd := by
  induction xs generalizing ys with
  | nil =>
    cases ys with
    | nil => rfl
    | cons y ys => simp at h
  | cons x xs ih =>
    cases ys with
    | nil => simp at h
    | cons y ys =>
      have hlen : xs.length = ys.length := by simpa using h
      simp only [booleanIndex, List.map_cons, List.zip_cons_cons, List.filter_cons] at ih ⊢
      cases hmx : m x
      · simpa [hmx] using ih ys hlen
      · simpa [hmx] using ih ys hlen

theorem map_fst_filter_zip {α β : Type} (xs : List α) (ys : List β) (m : α → Bool)
    (h : xs.length = ys.length) :
    ((xs.zip ys).filter (fun ab => m ab.1)).map Prod.fst = xs.filter m := by
  induction xs generalizing ys with
  | nil => rfl
  | cons x xs ih =>
    cases ys with
    | nil => simp at h
    | cons y ys =>
      have hlen : xs.length = ys.length := by simpa using h
      simp only [List.zip_cons_cons, List.filter_cons] at ih ⊢
      cases hmx : m x
      · simpa [hmx] using ih ys hlen
      · simpa [hmx] using ih ys hlen

theorem flatten_length_eq_of_forall₂ {α β : Type} {t : List (List α)} {p : List (List β)}
    (h : List.Forall₂ (fun a b => a.length = b.length) t p) :
    t.flatten.length = p.flatten.length := by
  induction h with
  | nil => rfl
  | cons hab _ ih => simp [hab, ih]

theorem pairUp_length {α : Type} : (l : List α) → (pairUp l).length = l.length / 2
  | [] => by simp [pairUp]
  | [x] => by simp [pairUp]
  | x :: y :: rest => by
    simp only [pairUp, List.length_cons, pairUp_length rest]
    omega

theorem getElem?_zip_of_getElem? {α β : Type} {xs : List α} {ys : List β} {i : ℕ} {a : α} {b : β}
    (ha : xs[i]? = some a) (hb : ys[i]? = some b) : (xs.zip ys)[i]? = some (a, b) := by
  induction xs generalizing ys i with
  | nil => simp at ha
  | cons x xs ih =>
    cases ys with
    | nil => simp at hb
    | cons y ys =>
      cases i with
      | zero =>
        simp only [List.getElem?_cons_zero, Option.some_inj] at ha hb
        simp [ha, hb]
      | succ n =>
        simp only [List.getElem?_cons_succ, List.zip_cons_cons] at ha hb ⊢
        exact ih ha hb

/-- C1: for every loss instance the derived weight is
`1 / (2 * exp(log_weight))` and is strictly positive; `log_weight = 0`
yields weight `0.5` and `log_weight = ln 2` yields `0.25`; and every
modelled `__call__` returns this weight multiplied by its reduced scalar
loss. -/
theorem claim1_weight_law :
    (∀ lw : ℝ, weight lw = 1 / (2 * Real.exp lw) ∧ 0 < weight lw)
    ∧ weight 0 = 1 / 2
    ∧ weight (Real.log 2) = 1 / 4
    ∧ (∀ cl (lw : ℝ) (t p : Hm4), heatmapCall cl lw t p
        = weightedOutput lw (fmean (cl (removeNansHeatmap t p).1 (removeNansHeatmap t p).2)))
    ∧ (∀ cl (lw : ℝ) (eps : ℚ) t p, regressionCall cl lw eps t p
        = weightedOutput lw (fmean (cl (removeNansReg t p).1 (removeNansReg t p).2)))
    ∧ (∀ cl (lw : ℝ) (eps : ℚ) preds, pcaCall cl lw eps preds
        = weightedOutput lw (fmean (rectify2F eps (cl preds)).flatten))
    ∧ (∀ (lw eps : ℝ) preds, temporalCall lw eps preds
        = weight lw * meanR ((temporalCompute preds).map (rectifyR eps)).flatten)
    ∧ (∀ cl gen (lw : ℝ) (eps : ℚ) kp hm, unimodalCall cl gen lw eps kp hm
        = weightedOutput lw (fmean (cl (gen (kp.map pairUp)) hm))) := by
  refine ⟨fun lw => ⟨rfl, by unfold weight; positivity⟩, ?_, ?_,
    fun _ _ _ _ => rfl, fun _ _ _ _ _ => rfl, fun _ _ _ _ => rfl,
    fun _ _ _ => rfl, fun _ _ _ _ _ _ => rfl⟩
  · rw [weight, Real.exp_zero]; norm_num
  · rw [weight, Real.exp_log (by norm_num : (0:ℝ) < 2)]; norm_num

/-- C6: `RegressionRMSELoss.compute_loss` pairs the coordinates, averages
the two squared components of each keypoint, then takes the square root;
on targets `[0, 0]` and predictions `[3, 4]` the result is
`sqrt(25 / 2) ≈ 3.5355`, not the Euclidean norm `5`. -/
theorem claim6_rmse_compute :
    (∀ (tx ty px py : ℝ) (ts ps : List ℝ),
        rmseCompute (tx :: ty :: ts) (px :: py :: ps)
          = Real.sqrt (((tx - px) ^ 2 + (ty - py) ^ 2) / 2) :: rmseCompute ts ps)
    ∧ rmseCompute [0, 0] [3, 4] = [Real.sqrt (25 / 2)]
    ∧ Real.sqrt (25 / 2) ≠ 5
    ∧ 3.53 < Real.sqrt (25 / 2) ∧ Real.sqrt (25 / 2) < 3.54 := by
  have hsq : Real.sqrt (25 / 2) ^ 2 = 25 / 2 := Real.sq_sqrt (by norm_num)
  have hnn : 0 ≤ Real.sqrt (25 / 2) := Real.sqrt_nonneg _
  refine ⟨fun tx ty px py ts ps => rfl, ?_, ?_, ?_, ?_⟩
  · norm_num [rmseCompute, pairUp]
  · intro h
    rw [h] at hsq
    norm_num at hsq
  · nlinarith [hsq, hnn]
  · nlinarith [hsq, hnn]

theorem temporalCompute_length (preds : List (List ℝ)) :
    (temporalCompute preds).length = preds.length - 1 := by
  simp only [temporalCompute, List.length_map, diffRows, List.length_zipWith, List.length_tail]
  omega

/-- C7: `TemporalLoss.compute_loss` takes consecutive differences along the
batch axis, pairs them per keypoint, and reduces each pair to its Euclidean
norm, producing a `(batch - 1, num_keypoints)` tensor; for 3 frames of one
keypoint at `(0,0), (3,4), (3,4)` the elementwise result is `[[5], [0]]`. -/
theorem claim7_temporal_compute :
    (∀ preds : List (List ℝ), (temporalCompute preds).length = preds.length - 1)
    ∧ (∀ (r1 r2 : List ℝ) (rest : List (List ℝ)),
        temporalCompute (r1 :: r2 :: rest)
          = (pairUp (List.zipWith (fun a b => a - b) r2 r1)).map norm2
              :: temporalCompute (r2 :: rest))
    ∧ (∀ (preds : List (List ℝ)) (K : ℕ), (∀ r ∈ preds, r.length = 2 * K) →
        ∀ (i : ℕ) (hi : i < (temporalCompute preds).length),
          ((temporalCompute preds)[i]).length = K)
    ∧ temporalCompute [[0, 0], [3, 4], [3, 4]] = [[5], [0]] := by
  refine ⟨temporalCompute_length, fun r1 r2 rest => rfl, ?_, ?_⟩
  · intro preds K hK i hi
    have hi2 : i < (diffRows preds).length := by
      simpa [temporalCompute] using hi
    have hbt : i < preds.tail.length := by
      simp only [diffRows, List.length_zipWith] at hi2; omega
    have hbp : i < preds.length := by
      simp only [diffRows, List.length_zipWith] at hi2; omega
    simp only [temporalCompute, List.getElem_map, List.length_map, pairUp_length]
    simp only [diffRows, List.getElem_zipWith, List.length_zipWith]
    have h1 : preds.tail[i] ∈ preds := (List.tail_sublist preds).subset (List.getElem_mem hbt)
    have h2 : preds[i] ∈ preds := List.getElem_mem hbp
    rw [hK _ h1, hK _ h2]
    omega
  · have h5 : Real.sqrt (((3:ℝ) - 0) ^ 2 + ((4:ℝ) - 0) ^ 2) = 5 := by
      rw [show ((3:ℝ) - 0) ^ 2 + ((4:ℝ) - 0) ^ 2 = 5 ^ 2 by norm_num]
      exact Real.sqrt_sq (by norm_num)
    have h0 : Real.sqrt (((3:ℝ) - 3) ^ 2 + ((4:ℝ) - 4) ^ 2) = 0 := by
      rw [show ((3:ℝ) - 3) ^ 2 + ((4:ℝ) - 4) ^ 2 = 0 by norm_num]
      exact Real.sqrt_zero
    simp only [temporalCompute, diffRows, List.tail_cons, List.zipWith_cons_cons,
      List.zipWith_nil_right, List.zipWith_nil_left, List.map_cons, List.map_nil, pairUp, norm2]
    rw [h5, h0]

/-- C8: `rectify_epsilon` zeroes exactly the entries that compare strictly
below epsilon and leaves the rest unchanged; on
`[0, epsilon - δ, epsilon + δ]` with `δ > 0` it yields
`[0, 0, epsilon + δ]`. -/
theorem claim8_rectify_epsilon (eps : ℚ) (l : List FVal) (e d : ℚ) (hd : 0 < d) :
    (rectifyF eps l).length = l.length
    ∧ (∀ (i : ℕ) (a : ℚ), l[i]? = some (FVal.num a) → a < eps →
        (rectifyF eps l)[i]? = some (FVal.num 0))
    ∧ (∀ (i : ℕ) (a : ℚ), l[i]? = some (FVal.num a) → eps ≤ a →
        (rectifyF eps l)[i]? = some (FVal.num a))
    ∧ rectifyF e [FVal.num 0, FVal.num (e - d), FVal.num (e + d)]
        = [FVal.num 0, FVal.num 0, FVal.num (e + d)] := by
  refine ⟨by simp [rectifyF], ?_, ?_, ?_⟩
  · intro i a hi ha
    simp [rectifyF, List.getElem?_map, hi, FVal.ltb, ha]
  · intro i a hi ha
    simp [rectifyF, List.getElem?_map, hi, FVal.ltb, not_lt.mpr ha]
  · have h2 : e - d < e := by linarith
    have h3 : ¬(e + d < e) := by linarith
    by_cases h0 : (0:ℚ) < e <;>
      simp [rectifyF, FVal.ltb, h0, h2, h3]

/-- Witness for C8 at `epsilon = 2`, loss `[nan, 3]`, `e = 1`, `δ = 1`. -/
theorem claim8_witness :
    (rectifyF 2 [FVal.nan, FVal.num 3]).length = [FVal.nan, FVal.num 3].length
    ∧ (∀ (i : ℕ) (a : ℚ), [FVal.nan, FVal.num 3][i]? = some (FVal.num a) → a < 2 →
        (rectifyF 2 [FVal.nan, FVal.num 3])[i]? = some (FVal.num 0))
    ∧ (∀ (i : ℕ) (a : ℚ), [FVal.nan, FVal.num 3][i]? = some (FVal.num a) → 2 ≤ a →
        (rectifyF 2 [FVal.nan, FVal.num 3])[i]? = some (FVal.num a))
    ∧ rectifyF 1 [FVal.num 0, FVal.num (1 - 1), FVal.num (1 + 1)]
        = [FVal.num 0, FVal.num 0, FVal.num (1 + 1)] :=
  claim8_rectify_epsilon 2 [FVal.nan, FVal.num 3] 1 1 (by norm_num)

theorem length_filter_zip_left {α β : Type} (xs : List α) (ys : List β) (m : α → Bool)
    (h : xs.length = ys.length) :
    ((xs.zip ys).filter (fun ab => m ab.1)).length = xs.countP m := by
  rw [List.countP_eq_length_filter, ← map_fst_filter_zip xs ys m h, List.length_map]

/-- C3: `HeatmapLoss.remove_nans` keeps, on both tensors, exactly the
`(batch, keypoint)` slices whose target slice is not entirely zero; the
same mask is applied to both sides, lengths equal the count of
non-all-zero target slices, and order and pairing are preserved (both
outputs are the two projections of the same filtered list of pairs). -/
theorem claim3_heatmap_remove_nans (t p : Hm4)
    (h : List.Forall₂ (fun (a b : List Slice) => a.length = b.length) t p) :
    (removeNansHeatmap t p).1
        = ((t.flatten.zip p.flatten).filter (fun ab => !allZero ab.1)).map Prod.fst
    ∧ (removeNansHeatmap t p).2
        = ((t.flatten.zip p.flatten).filter (fun ab => !allZero ab.1)).map Prod.snd
    ∧ (removeNansHeatmap t p).1.length = t.flatten.countP (fun s => !allZero s)
    ∧ (removeNansHeatmap t p).2.length = t.flatten.countP (fun s => !allZero s) := by
  have hlen := flatten_length_eq_of_forall₂ h
  have hmask : (t.flatten.map allZero).map (fun b => !b)
      = t.flatten.map (fun s => !allZero s) := by
    rw [List.map_map]; rfl
  have h1 : (removeNansHeatmap t p).1 = t.flatten.filter (fun s => !allZero s) := by
    simp only [removeNansHeatmap, hmask]
    exact booleanIndex_self_map _ _
  have h2 : (removeNansHeatmap t p).2
      = ((t.flatten.zip p.flatten).filter (fun ab => !allZero ab.1)).map Prod.snd := by
    simp only [removeNansHeatmap, hmask]
    exact booleanIndex_other_map _ _ _ hlen
  refine ⟨?_, h2, ?_, ?_⟩
  · rw [h1, ← map_fst_filter_zip t.flatten p.flatten _ hlen]
  · rw [h1, ← List.countP_eq_length_filter]
  · rw [h2, List.length_map]
    exact length_filter_zip_left t.flatten p.flatten (fun s => !allZero s) hlen

/-- Witness for C3: one batch with one all-zero and one nonzero target
slice; the nonzero slice and its paired prediction slice survive. -/
theorem claim3_witness :
    removeNansHeatmap [[[[FVal.num 0]], [[FVal.num 1]]]] [[[[FVal.num 2]], [[FVal.num 3]]]]
        = ([[[FVal.num 1]]], [[[FVal.num 3]]])
    ∧ (removeNansHeatmap [[[[FVal.num 0]], [[FVal.num 1]]]]
          [[[[FVal.num 2]], [[FVal.num 3]]]]).1.length
        = ([[[[FVal.num 0]], [[FVal.num 1]]]] : Hm4).flatten.countP (fun s => !allZero s) :=
  ⟨by decide,
   (claim3_heatmap_remove_nans _ _ (List.Forall₂.cons rfl List.Forall₂.nil)).2.2.1⟩

/-- C4: `RegressionMSELoss.remove_nans` applies the elementwise
target-is-not-nan mask (per scalar coordinate channel) identically to both
flattened tensors, returning equal-length flat sequences holding exactly
the entries at non-nan target positions, order and pairing preserved. -/
theorem claim4_regression_remove_nans (t p : List (List FVal))
    (h : List.Forall₂ (fun (a b : List FVal) => a.length = b.length) t p) :
    (removeNansReg t p).1
        = ((t.flatten.zip p.flatten).filter (fun ab => ab.1.beq ab.1)).map Prod.fst
    ∧ (removeNansReg t p).2
        = ((t.flatten.zip p.flatten).filter (fun ab => ab.1.beq ab.1)).map Prod.snd
    ∧ (removeNansReg t p).1.length = t.flatten.countP (fun v => !v.isnan)
    ∧ (removeNansReg t p).2.length = t.flatten.countP (fun v => !v.isnan)
    ∧ (∀ v : FVal, v.beq v = !v.isnan) := by
  have hlen := flatten_length_eq_of_forall₂ h
  have h1 : (removeNansReg t p).1 = t.flatten.filter (fun v => v.beq v) := by
    simp only [removeNansReg]
    exact booleanIndex_self_map _ _
  have h2 : (removeNansReg t p).2
      = ((t.flatten.zip p.flatten).filter (fun ab => ab.1.beq ab.1)).map Prod.snd := by
    simp only [removeNansReg]
    exact booleanIndex_other_map _ _ _ hlen
  have hcnt : t.flatten.countP (fun v => v.beq v) = t.flatten.countP (fun v => !v.isnan) :=
    List.countP_congr (fun v _ => by rw [FVal.beq_self_eq_not_isnan v])
  refine ⟨?_, h2, ?_, ?_, FVal.beq_self_eq_not_isnan⟩
  · rw [h1, ← map_fst_filter_zip t.flatten p.flatten _ hlen]
  · rw [h1, ← List.countP_eq_length_filter, hcnt]
  · rw [h2, List.length_map]
    exact (length_filter_zip_left t.flatten p.flatten (fun v => v.beq v) hlen).trans hcnt

/-- Witness for C4: a batch with one nan target coordinate; the finite
coordinate and its paired prediction survive as flat singletons. -/
theorem claim4_witness :
    removeNansReg [[FVal.num 1, FVal.nan]] [[FVal.num 5, FVal.num 6]]
        = ([FVal.num 1], [FVal.num 5])
    ∧ (removeNansReg [[FVal.num 1, FVal.nan]] [[FVal.num 5, FVal.num 6]]).1.length
        = ([[FVal.num 1, FVal.nan]] : List (List FVal)).flatten.countP (fun v => !v.isnan) :=
  ⟨by decide,
   (claim4_regression_remove_nans _ _ (List.Forall₂.cons rfl List.Forall₂.nil)).2.2.1⟩

/-- C5 as stated is false on the code: `RegressionRMSELoss` overrides only
`__init__` and `compute_loss`, so invoking an RMSE instance runs the
inherited `RegressionMSELoss.__call__`, which applies `remove_nans` before
dispatching to `self.compute_loss`.  Instantiating the `compute_loss`
dispatch with the identity probe (which returns exactly the tensor it
receives) on a batch whose target holds one nan shows that `compute_loss`
does not receive the full flattened batch: had it received the unmasked
targets `[nan, 1]`, the reduced loss would be `nan` (`none`); the actual
call receives the masked `[1]` and returns a finite value. -/
theorem claim5_counterexample :
    regressionCall (fun ct cp => ct) 0 0 [[FVal.nan, FVal.num 1]] [[FVal.num 2, FVal.num 3]]
      ≠ weightedOutput 0 (fmean [FVal.nan, FVal.num 1]) := by
  intro heq
  have h1 : removeNansReg [[FVal.nan, FVal.num 1]] [[FVal.num 2, FVal.num 3]]
      = ([FVal.num 1], [FVal.num 3]) := by decide
  have h2 : fmean [FVal.nan, FVal.num 1] = FVal.nan :=
    fmean_eq_nan_of_mem (List.mem_cons_self _ _)
  have h3 : fmean [FVal.num 1] = FVal.num 1 := by
    norm_num [fmean, fsum, FVal.divNat, FVal.add]
  simp only [regressionCall, h1, h2, h3, weightedOutput, FVal.toReal, Option.map_some',
    Option.map_none'] at heq
  exact Option.noConfusion heq

/-- C5, amended: when an RMSE loss instance is invoked, the inherited
`__call__` applies `remove_nans` first, so `compute_loss` receives the
masked flattened tensors, whose length is the number of non-nan target
entries — strictly smaller than the full flattened batch whenever some
target entry is nan — rather than the fixed full-batch shape. -/
theorem claim5_rmse_call_masks (t p : List (List FVal))
    (h : List.Forall₂ (fun (a b : List FVal) => a.length = b.length) t p) :
    (∀ (computeLoss : List FVal → List FVal → List FVal) (lw : ℝ) (eps : ℚ),
        regressionCall computeLoss lw eps t p
          = weightedOutput lw
              (fmean (computeLoss (removeNansReg t p).1 (removeNansReg t p).2)))
    ∧ (removeNansReg t p).1.length = t.flatten.countP (fun v => !v.isnan)
    ∧ (removeNansReg t p).2.length = t.flatten.countP (fun v => !v.isnan)
    ∧ ((∃ v ∈ t.flatten, v.isnan = true) →
        (removeNansReg t p).1.length < t.flatten.length) := by
  have hlen := flatten_length_eq_of_forall₂ h
  have h1 : (removeNansReg t p).1 = t.flatten.filter (fun v => v.beq v) := by
    simp only [removeNansReg]
    exact booleanIndex_self_map _ _
  have hcnt : t.flatten.countP (fun v => v.beq v) = t.flatten.countP (fun v => !v.isnan) :=
    List.countP_congr (fun v _ => by rw [FVal.beq_self_eq_not_isnan v])
  have hlen1 : (removeNansReg t p).1.length = t.flatten.countP (fun v => !v.isnan) := by
    rw [h1, ← List.countP_eq_length_filter, hcnt]
  have h2 : (removeNansReg t p).2
      = ((t.flatten.zip p.flatten).filter (fun ab => ab.1.beq ab.1)).map Prod.snd := by
    simp only [removeNansReg]
    exact booleanIndex_other_map _ _ _ hlen
  refine ⟨fun _ _ _ => rfl, hlen1, ?_, ?_⟩
  · rw [h2, List.length_map]
    exact (length_filter_zip_left t.flatten p.flatten (fun v => v.beq v) hlen).trans hcnt
  · rintro ⟨v, hv, hnan⟩
    rw [hlen1]
    have hle : t.flatten.countP (fun v => !v.isnan) ≤ t.flatten.length :=
      List.countP_le_length _
    have hne : t.flatten.countP (fun v => !v.isnan) ≠ t.flatten.length := by
      intro hceq
      have := List.countP_eq_length.mp hceq v hv
      rw [hnan] at this
      exact Bool.noConfusion this
    omega

/-- Witness for the amended C5: with one nan target coordinate the input
reaching `compute_loss` is strictly shorter than the full batch. -/
theorem claim5_witness :
    (removeNansReg [[FVal.num 4, FVal.nan]] [[FVal.num 7, FVal.num 8]]).1.length
      < ([[FVal.num 4, FVal.nan]] : List (List FVal)).flatten.length :=
  (claim5_rmse_call_masks _ _ (List.Forall₂.cons rfl List.Forall₂.nil)).2.2.2
    ⟨FVal.nan, by decide, rfl⟩

/-- C9 as stated is false on the code: `reduce_loss` with method `"mean"`
on an empty (fully masked) tensor neither fails (the dictionary lookup
succeeds) nor returns `0`; `torch.mean` of zero elements is `nan`. -/
theorem claim9_counterexample :
    ¬(reduceLoss "mean" [] = none ∨ reduceLoss "mean" [] = some (FVal.num 0)) := by
  decide

/-- C9, amended: `reduce_loss` under `"mean"` on an empty tensor silently
returns `nan`, which the call pipeline propagates to the caller as a `nan`
weighted loss. -/
theorem claim9_mean_empty_nan :
    reduceLoss "mean" [] = some FVal.nan
    ∧ FVal.nan ≠ FVal.num 0
    ∧ (∀ lw : ℝ, weightedOutput lw (fmean []) = none) :=
  ⟨by decide, by decide, fun lw => rfl⟩

/-- C10: the regression mask is computed from the targets alone
(`targets == targets`), so a nan occurring only in the predictions at a
position whose target is finite survives the mask and propagates through
the squared error and the mean into the returned loss, which becomes nan
(`none`). -/
theorem claim10_prediction_nan_propagates (lw : ℝ) (eps : ℚ) (t p : List (List FVal))
    (h : List.Forall₂ (fun (a b : List FVal) => a.length = b.length) t p)
    (i : ℕ) (a : FVal)
    (hti : t.flatten[i]? = some a) (hnn : a.isnan = false)
    (hpi : p.flatten[i]? = some FVal.nan) :
    FVal.nan ∈ (removeNansReg t p).2 ∧ regressionMSECall lw eps t p = none := by
  have hlen := flatten_length_eq_of_forall₂ h
  have hF : (removeNansReg t p).1
      = ((t.flatten.zip p.flatten).filter (fun ab => ab.1.beq ab.1)).map Prod.fst := by
    have h1 : (removeNansReg t p).1 = t.flatten.filter (fun v => v.beq v) := by
      simp only [removeNansReg]
      exact booleanIndex_self_map _ _
    rw [h1, ← map_fst_filter_zip t.flatten p.flatten _ hlen]
  have hS : (removeNansReg t p).2
      = ((t.flatten.zip p.flatten).filter (fun ab => ab.1.beq ab.1)).map Prod.snd := by
    simp only [removeNansReg]
    exact booleanIndex_other_map _ _ _ hlen
  have hz : (t.flatten.zip p.flatten)[i]? = some (a, FVal.nan) :=
    getElem?_zip_of_getElem? hti hpi
  have hmemz : (a, FVal.nan) ∈ t.flatten.zip p.flatten := List.getElem?_mem hz
  have hkeep : ((a, FVal.nan).1.beq (a, FVal.nan).1) = true := by
    rw [FVal.beq_self_eq_not_isnan, hnn]
    rfl
  have hmemF : (a, FVal.nan)
      ∈ (t.flatten.zip p.flatten).filter (fun ab => ab.1.beq ab.1) :=
    List.mem_filter.mpr ⟨hmemz, hkeep⟩
  have hmem2 : FVal.nan ∈ (removeNansReg t p).2 := by
    rw [hS]
    exact List.mem_map.mpr ⟨(a, FVal.nan), hmemF, rfl⟩
  refine ⟨hmem2, ?_⟩
  have helem : regressionMSEElem (removeNansReg t p).1 (removeNansReg t p).2
      = ((t.flatten.zip p.flatten).filter (fun ab => ab.1.beq ab.1)).map
          (fun pr => sqdiff pr.1 pr.2) := by
    rw [regressionMSEElem, hF, hS, List.zipWith_map_left, List.zipWith_map_right,
      List.zipWith_same]
  have hnan_elem : FVal.nan ∈ regressionMSEElem (removeNansReg t p).1 (removeNansReg t p).2 := by
    rw [helem]
    refine List.mem_map.mpr ⟨(a, FVal.nan), hmemF, ?_⟩
    show sqdiff a FVal.nan = FVal.nan
    cases a <;> rfl
  show weightedOutput lw (fmean (regressionMSEElem (removeNansReg t p).1 (removeNansReg t p).2))
      = none
  rw [fmean_eq_nan_of_mem hnan_elem]
  rfl

/-- Witness for C10: target `[1, 2]` with prediction `[nan, 3]`; the call
returns a nan loss. -/
theorem claim10_witness :
    regressionMSECall 0 0 [[FVal.num 1, FVal.num 2]] [[FVal.nan, FVal.num 3]] = none :=
  (claim10_prediction_nan_propagates 0 0 [[FVal.num 1, FVal.num 2]] [[FVal.nan, FVal.num 3]]
    (List.Forall₂.cons rfl List.Forall₂.nil) 0 (FVal.num 1) rfl rfl rfl).2

/-- C2 as stated is false on the code: `UnimodalLoss.__call__` goes
straight from the elementwise loss to the mean reduction and never calls
`rectify_epsilon` (while storing an unused `self.epsilon`).  At a concrete
input whose single elementwise loss value `1` lies strictly below
`epsilon = 2`, the actual unimodal call differs from the claimed pipeline
(`unimodalCallWithRectify`), which would zero that value out. -/
theorem claim2_counterexample :
    unimodalCall unimodalMSEElem (fun k => [[[[FVal.num 0]]]]) 0 2
        [[FVal.num 0, FVal.num 0]] [[[[FVal.num 1]]]]
      ≠ unimodalCallWithRectify unimodalMSEElem (fun k => [[[[FVal.num 0]]]]) 0 2
        [[FVal.num 0, FVal.num 0]] [[[[FVal.num 1]]]] := by
  intro heq
  have he : unimodalMSEElem [[[[FVal.num 0]]]] [[[[FVal.num 1]]]] = [FVal.num 1] := by
    norm_num [unimodalMSEElem, sqdiff, FVal.sub, FVal.mul]
  have hm1 : fmean [FVal.num 1] = FVal.num 1 := by
    norm_num [fmean, fsum, FVal.divNat, FVal.add]
  have hr : rectifyF 2 [FVal.num 1] = [FVal.num 0] := by
    norm_num [rectifyF, FVal.ltb]
  have hm0 : fmean [FVal.num 0] = FVal.num 0 := by
    norm_num [fmean, fsum, FVal.divNat, FVal.add]
  simp only [unimodalCall, unimodalCallWithRectify, he, hm1, hr, hm0, weightedOutput,
    FVal.toReal, Option.map_some', Option.some_inj] at heq
  rw [weight, Real.exp_zero] at heq
  norm_num at heq

/-- C2, amended: epsilon-insensitivity is applied by the temporal and PCA
calls (between elementwise computation and mean reduction, and their output
genuinely depends on epsilon), while the unimodal calls and the plain
supervised heatmap/regression calls never apply it — the unimodal and
regression outputs are independent of the stored epsilon, and the heatmap
call reduces the raw elementwise loss directly. -/
theorem claim2_epsilon_application :
    (∀ cl gen (lw : ℝ) (e e2 : ℚ) kp hm,
        unimodalCall cl gen lw e kp hm = unimodalCall cl gen lw e2 kp hm)
    ∧ (∀ cl (lw : ℝ) (e e2 : ℚ) t p,
        regressionCall cl lw e t p = regressionCall cl lw e2 t p)
    ∧ (∀ cl (lw : ℝ) (t p : Hm4),
        heatmapCall cl lw t p
          = weightedOutput lw (fmean (cl (removeNansHeatmap t p).1 (removeNansHeatmap t p).2)))
    ∧ (∀ cl (lw : ℝ) (eps : ℚ) preds,
        pcaCall cl lw eps preds
          = weightedOutput lw (fmean (rectify2F eps (cl preds)).flatten))
    ∧ (∀ (lw eps : ℝ) preds,
        temporalCall lw eps preds
          = weight lw * meanR ((temporalCompute preds).map (rectifyR eps)).flatten)
    ∧ (∃ (lw e e2 : ℝ) (preds : List (List ℝ)), temporalCall lw e preds ≠ temporalCall lw e2 preds)
    ∧ (∃ (cl : List (List FVal) → List (List FVal)) (lw : ℝ) (e e2 : ℚ) (preds : List (List FVal)), pcaCall cl lw e preds ≠ pcaCall cl lw e2 preds) := by
  refine ⟨fun _ _ _ _ _ _ _ => rfl, fun _ _ _ _ _ _ => rfl, fun _ _ _ _ => rfl,
    fun _ _ _ _ => rfl, fun _ _ _ => rfl, ⟨0, 0, 10, [[0, 0], [3, 4]], ?_⟩,
    ⟨fun x => x, 0, 0, 2, [[FVal.num 1]], ?_⟩⟩
  · have h5 : Real.sqrt (((3:ℝ) - 0) ^ 2 + ((4:ℝ) - 0) ^ 2) = 5 := by
      rw [show ((3:ℝ) - 0) ^ 2 + ((4:ℝ) - 0) ^ 2 = 5 ^ 2 by norm_num]
      exact Real.sqrt_sq (by norm_num)
    have ht : temporalCompute [[(0:ℝ), 0], [3, 4]] = [[5]] := by
      simp only [temporalCompute, diffRows, List.tail_cons, List.zipWith_cons_cons,
        List.zipWith_nil_right, List.zipWith_nil_left, List.map_cons, List.map_nil,
        pairUp, norm2]
      rw [h5]
    have h1 : temporalCall 0 0 [[(0:ℝ), 0], [3, 4]] = weight 0 * 5 := by
      simp only [temporalCall, ht, rectifyR, List.map_cons, List.map_nil,
        List.flatten_cons, List.flatten_nil, List.append_nil]
      norm_num [meanR]
    have h2 : temporalCall 0 10 [[(0:ℝ), 0], [3, 4]] = weight 0 * 0 := by
      simp only [temporalCall, ht, rectifyR, List.map_cons, List.map_nil,
        List.flatten_cons, List.flatten_nil, List.append_nil]
      norm_num [meanR]
    intro heq
    rw [h1, h2] at heq
    rw [weight, Real.exp_zero] at heq
    norm_num at heq
  · have hr0 : rectify2F 0 [[FVal.num 1]] = [[FVal.num 1]] := by
      norm_num [rectify2F, rectifyF, FVal.ltb]
    have hr2 : rectify2F 2 [[FVal.num 1]] = [[FVal.num 0]] := by
      norm_num [rectify2F, rectifyF, FVal.ltb]
    have hm1 : fmean [FVal.num 1] = FVal.num 1 := by
      norm_num [fmean, fsum, FVal.divNat, FVal.add]
    have hm0 : fmean [FVal.num 0] = FVal.num 0 := by
      norm_num [fmean, fsum, FVal.divNat, FVal.add]
    intro heq
    simp only [pcaCall, hr0, hr2, List.flatten_cons, List.flatten_nil, List.append_nil,
      hm1, hm0, weightedOutput, FVal.toReal, Option.map_some', Option.some_inj] at heq
    rw [weight, Real.exp_zero] at heq
    norm_num at heq

/-- Witness for C6: the recursion clause evaluated at one concrete keypoint. -/
theorem claim6_witness :
    rmseCompute [(1:ℝ), 2] [4, 6]
      = Real.sqrt ((((1:ℝ) - 4) ^ 2 + ((2:ℝ) - 6) ^ 2) / 2) :: rmseCompute [] [] :=
  claim6_rmse_compute.1 1 2 4 6 [] []

/-- Witness for C7: two frames of a single keypoint give one row holding
one per-keypoint displacement. -/
theorem claim7_witness :
    ∃ h1 : 0 < (temporalCompute [[(0:ℝ), 0], [3, 4]]).length,
      ((temporalCompute [[(0:ℝ), 0], [3, 4]]).get ⟨0, h1⟩).length = 1 := by
  have hb : 0 < (temporalCompute [[(0:ℝ), 0], [3, 4]]).length := by
    rw [temporalCompute_length]
    norm_num
  have hK : ∀ r ∈ [[(0:ℝ), 0], [3, 4]], r.length = 2 * 1 := by
    intro r hr
    rcases List.mem_cons.mp hr with h | h
    · subst h; rfl
    · rcases List.mem_cons.mp h with h2 | h2
      · subst h2; rfl
      · exact absurd h2 (List.not_mem_nil r)
  exact ⟨hb, claim7_temporal_compute.2.2.1 [[(0:ℝ), 0], [3, 4]] 1 hK 0 hb⟩
